import Mathlib

/-!
Verification of the grammar-scoring-engine core against its specification.

The Python sources are shallowly embedded in Lean:
  * Python strings are modelled as `List Char`; `str.lower` is modelled by
    the ASCII case map `lowerChar` (the repository processes English ASR
    transcripts); the regex class `\s` is modelled by `isPySpace`, the six
    ASCII whitespace characters Python's `re` matches by default on such
    text.
  * `src/src/text_cleaning.py` is embedded function by function
    (`_normalise_whitespace`, `_remove_non_lexical_fillers`,
    `_trim_simple_false_starts`, `_collapse_stutter_repetitions`,
    `clean_transcript`); the mutable `CleaningStats` accumulator becomes
    explicit count returns.
  * `src/src/evaluation.py`'s `score_band` compares a float against the
    literals 2.5 and 4.0; floats that arise here are exact binary
    comparisons of rational values, so the embedding uses `ℚ`.
  * `src/src/feature_engineering.py`'s grammar-error classification loop is
    embedded over an abstract list of grammar-checker matches, Python's
    substring operator `in` becoming `occursIn`.
  * `src/src/model.py`'s `cross_validate_baseline` is embedded with the
    external sklearn/numpy calls (KFold shuffling under the fixed seed,
    ridge fit + predict, `corrcoef`, `sqrt`) abstracted into an
    `ExternalML` parameter; the repository's own fold loop, the
    `np.std(..) > 0` guards (rendered as equivalent exact
    population-variance positivity over `ℚ`) and the NaN aggregation
    (`Option ℚ`, `none` = NaN) are embedded concretely.
  * `src/submission/generate_submission.py`'s prediction path indexes a
    pandas frame with `test_feats[feature_names]`; the frame becomes an
    association list of named columns and the indexing step the fallible
    `selectCols`.
-/

namespace GrammarScore

/-- Whitespace characters as matched by the regex class used in
`_normalise_whitespace` (`re.sub(r"\s+", " ", text)`): space, tab,
newline, carriage return, vertical tab, form feed. -/
def isPySpace (c : Char) : Bool :=
  c = ' ' || c = '\t' || c = '\n' || c = '\r' || c = '\x0b' || c = '\x0c'

/-- ASCII case map modelling `str.lower` on the transcripts processed by
this repository. -/
def lowerChar : Char → Char
  | 'A' => 'a' | 'B' => 'b' | 'C' => 'c' | 'D' => 'd' | 'E' => 'e'
  | 'F' => 'f' | 'G' => 'g' | 'H' => 'h' | 'I' => 'i' | 'J' => 'j'
  | 'K' => 'k' | 'L' => 'l' | 'M' => 'm' | 'N' => 'n' | 'O' => 'o'
  | 'P' => 'p' | 'Q' => 'q' | 'R' => 'r' | 'S' => 's' | 'T' => 't'
  | 'U' => 'u' | 'V' => 'v' | 'W' => 'w' | 'X' => 'x' | 'Y' => 'y'
  | 'Z' => 'z'
  | c => c

/-- The closed filler set `NON_LEXICAL_FILLERS` of `text_cleaning.py`. -/
def NON_LEXICAL_FILLERS : List (List Char) :=
  ["uh".data, "um".data, "erm".data, "eh".data, "uhm".data]

/-- `CleaningStats` of `text_cleaning.py`: counts of edits applied during
cleaning. -/
structure CleaningStats where
  num_tokens_raw : Nat := 0
  num_tokens_clean : Nat := 0
  fillers_removed : Nat := 0
  repetitions_collapsed : Nat := 0
  false_starts_trimmed : Nat := 0
deriving DecidableEq, Repr

/-- `_normalise_whitespace`: collapse whitespace runs to single spaces and
strip the ends; equivalently, join the maximal non-whitespace chunks with
single spaces. -/
def _normalise_whitespace (text : List Char) : List Char :=
  List.intercalate [' '] ((text.splitOnP isPySpace).filter (fun c => c ≠ []))

/-- `_lowercase`: lowercase for modelling. -/
def _lowercase (text : List Char) : List Char :=
  text.map lowerChar

/-- `_remove_non_lexical_fillers`: drop tokens from the closed filler set,
returning the kept tokens together with the number removed (the
`stats.fillers_removed` increments). -/
def _remove_non_lexical_fillers : List (List Char) → List (List Char) × Nat
  | [] => ([], 0)
  | t :: ts =>
    let r := _remove_non_lexical_fillers ts
    if t ∈ NON_LEXICAL_FILLERS then (r.1, r.2 + 1) else (t :: r.1, r.2)

/-- `_trim_simple_false_starts`: if the first token equals the second, drop
the first (once, looking only at the first two tokens); the `Nat` is the
`stats.false_starts_trimmed` increment. -/
def _trim_simple_false_starts : List (List Char) → List (List Char) × Nat
  | a :: b :: rest => if a = b then (b :: rest, 1) else (a :: b :: rest, 0)
  | l => (l, 0)

/-- Loop body of `_collapse_stutter_repetitions`: `prev` is the last token
already emitted (`cleaned[-1]`); each token equal to it is skipped and
counted, every other token is emitted and becomes the new `prev`. -/
def collapseGo (prev : List Char) : List (List Char) → List (List Char) × Nat
  | [] => ([], 0)
  | t :: ts =>
    if t = prev then
      let r := collapseGo prev ts
      (r.1, r.2 + 1)
    else
      let r := collapseGo t ts
      (t :: r.1, r.2)

/-- `_collapse_stutter_repetitions`: collapse immediate exact repetitions
such as `i i i` into `i`; the `Nat` is the `stats.repetitions_collapsed`
total. -/
def _collapse_stutter_repetitions : List (List Char) → List (List Char) × Nat
  | [] => ([], 0)
  | t :: ts =>
    let r := collapseGo t ts
    (t :: r.1, r.2)

/-- `clean_transcript` of `text_cleaning.py`. The argument is `Option`al
because the Python function's `if not text` guard also accepts `None`
(`none`); `some []` is the empty string. -/
def clean_transcript (text : Option (List Char)) : List Char × CleaningStats :=
  match text with
  | none => ([], {})
  | some t =>
    if t = [] then ([], {})
    else
      let normalized := _normalise_whitespace t
      let lowered := _lowercase normalized
      let tokens := lowered.splitOn ' '
      let raw := tokens.length
      let r1 := _remove_non_lexical_fillers tokens
      let r2 := _trim_simple_false_starts r1.1
      let r3 := _collapse_stutter_repetitions r2.1
      let cleaned_text := _normalise_whitespace (List.intercalate [' '] r3.1)
      (cleaned_text,
        { num_tokens_raw := raw
          num_tokens_clean := r3.1.length
          fillers_removed := r1.2
          repetitions_collapsed := r3.2
          false_starts_trimmed := r2.2 })

/-- `score_band` of `evaluation.py`: bucket scores into low/medium/high.
The float comparisons are exact, so the embedding works over `ℚ`. -/
def score_band (x : ℚ) : String :=
  if x ≤ 5/2 then "low"
  else if x < 4 then "medium"
  else "high"

/-- A grammar-checker match as consumed by `_grammar_error_features` of
`feature_engineering.py`: its rule identifier and human-readable message
(the `rule_id`/`message` attributes of a `language_tool_python` match). -/
structure LTMatch where
  rule_id : List Char
  message : List Char

/-- Python's substring operator `needle in hay` on strings. -/
def occursIn (needle : List Char) : List Char → Bool
  | [] => needle.isPrefixOf []
  | c :: rest => needle.isPrefixOf (c :: rest) || occursIn needle rest

/-- The `counts` dictionary built by `_grammar_error_features`. -/
structure GrammarCounts where
  num_grammar_errors : Nat := 0
  num_verb_tense_errors : Nat := 0
  num_agreement_errors : Nat := 0
  num_article_errors : Nat := 0
  num_preposition_errors : Nat := 0
  num_word_order_errors : Nat := 0
deriving DecidableEq, Repr

/-- Body of the `for m in matches` loop of `_grammar_error_features`,
applied to one match: the total is always incremented; the sub-category
counters are incremented according to keyword tests.  As in the source,
`rule_id` is lowercased into a local (`_rule_id`) but every keyword test
inspects only the lowercased message. -/
def classifyMatch (c : GrammarCounts) (m : LTMatch) : GrammarCounts :=
  let _rule_id := m.rule_id.map lowerChar
  let msg := m.message.map lowerChar
  { num_grammar_errors := c.num_grammar_errors + 1
    num_verb_tense_errors :=
      c.num_verb_tense_errors +
        (if occursIn "verb".data msg || occursIn "tense".data msg then 1 else 0)
    num_agreement_errors :=
      c.num_agreement_errors +
        (if occursIn "agreement".data msg || occursIn "subject-verb".data msg then 1 else 0)
    num_article_errors :=
      c.num_article_errors +
        (if occursIn "article".data msg || occursIn "determiner".data msg then 1 else 0)
    num_preposition_errors :=
      c.num_preposition_errors +
        (if occursIn "preposition".data msg then 1 else 0)
    num_word_order_errors :=
      c.num_word_order_errors +
        (if occursIn "word order".data msg then 1 else 0) }

/-- The match-classification loop of `_grammar_error_features`: fold
`classifyMatch` over the matches starting from the zero counts. -/
def grammar_error_counts (ms : List LTMatch) : GrammarCounts :=
  ms.foldl classifyMatch {}

/-- A pandas `DataFrame` restricted to what the prediction path of
`generate_submission.py` uses: an ordered association list of named
numeric columns. -/
abbrev DataFrame : Type := List (String × List ℚ)

/-- Column lookup by name, `df[name]`. -/
def DataFrame.col (df : DataFrame) (name : String) : Option (List ℚ) :=
  match df with
  | [] => none
  | (n, v) :: rest => if n = name then some v else DataFrame.col rest name

/-- Pandas label-list indexing `df[names]` as used at
`X_test = test_feats[feature_names]` in `generate_submission.main`:
select the named columns **in the order of `names`**, raising a
`KeyError` (modelled as `Except.error`) when a requested column is
missing.  Columns present under a different order are selected by name,
not rejected. -/
def selectCols (df : DataFrame) : List String → Except String DataFrame
  | [] => Except.ok []
  | n :: ns =>
    match DataFrame.col df n with
    | none => Except.error "KeyError"
    | some v =>
      match selectCols df ns with
      | Except.error e => Except.error e
      | Except.ok rest => Except.ok ((n, v) :: rest)

/-- The feature-alignment step of the prediction path in
`generate_submission.main` (line 68): index the extracted test features
by the training-time `artifacts.feature_names`.  The subsequent
`scaler.transform`/`model.predict` calls operate on the resulting
positional value array and perform no further name checking. -/
def main_feature_step (feature_names : List String) (test_feats : DataFrame) :
    Except String DataFrame :=
  selectCols test_feats feature_names

/-- `training_config.random_seed` of `config.py`. -/
def training_config_random_seed : Nat := 42

/-- `training_config.n_splits_cv` of `config.py`. -/
def training_config_n_splits_cv : Nat := 5

/-- The external numeric collaborators used by `cross_validate_baseline`
(`model.py`): sklearn's seeded `KFold` index generator, the
scaler+ridge fit/predict of a fold (`train_baseline_model` followed by
`scaler.transform` and `model.predict`), numpy's `corrcoef`, and
`math.sqrt`.  They are deterministic library functions, abstracted as
fields of this structure; the repository's own control flow is embedded
concretely below. -/
structure ExternalML where
  kfold : Nat → Nat → Nat → List (List Nat × List Nat)
  ridge_predict : List (List ℚ) → List ℚ → ℚ → List (List ℚ) → List ℚ
  corrcoef : List ℚ → List ℚ → ℚ
  sqrtQ : ℚ → ℚ

/-- Arithmetic mean of a list of rationals (value of `np.mean` on a
nonempty array). -/
def meanQ (xs : List ℚ) : ℚ := xs.sum / xs.length

/-- Population variance (the square of `np.std`); `np.std xs > 0` iff
`popVar xs > 0`, which is how the zero-variance guard of
`cross_validate_baseline` is rendered exactly over `ℚ`. -/
def popVar (xs : List ℚ) : ℚ :=
  meanQ (xs.map (fun x => (x - meanQ xs) ^ 2))

/-- `np.mean` with NaN (`none`) on an empty array. -/
def npMean (xs : List ℚ) : Option ℚ :=
  if xs = [] then none else some (meanQ xs)

/-- `np.std` with NaN (`none`) on an empty array; `sqrtQ` is the abstract
square root. -/
def npStd (sqrtQ : ℚ → ℚ) (xs : List ℚ) : Option ℚ :=
  if xs = [] then none else some (sqrtQ (popVar xs))

/-- `mean_absolute_error`. -/
def maeQ (yt yp : List ℚ) : ℚ :=
  meanQ ((yt.zip yp).map (fun p => |p.1 - p.2|))

/-- `mean_squared_error`. -/
def mseQ (yt yp : List ℚ) : ℚ :=
  meanQ ((yt.zip yp).map (fun p => (p.1 - p.2) ^ 2))

/-- The per-fold data of the `for train_idx, val_idx in kf.split(X)` loop
body of `cross_validate_baseline`: held-out truth `y_val` paired with the
fold model's predictions `y_pred`. -/
def cvFoldData (ext : ExternalML) (X : List (List ℚ)) (y : List ℚ) (alpha : ℚ)
    (fold : List Nat × List Nat) : List ℚ × List ℚ :=
  let X_train := fold.1.map (fun i => X.getD i [])
  let y_train := fold.1.map (fun i => y.getD i 0)
  let X_val := fold.2.map (fun i => X.getD i [])
  let y_val := fold.2.map (fun i => y.getD i 0)
  (y_val, ext.ridge_predict X_train y_train alpha X_val)

/-- The accumulation loop of `cross_validate_baseline`: builds the `maes`,
`rmses` and `pears` lists in fold order.  A fold's Pearson value is
appended only under the guard `np.std(y_pred) > 0 and np.std(y_val) > 0`
(population-variance positivity); MAE and RMSE are appended always. -/
def cvLoop (ext : ExternalML) (X : List (List ℚ)) (y : List ℚ) (alpha : ℚ) :
    List (List Nat × List Nat) → List ℚ × List ℚ × List ℚ
  | [] => ([], [], [])
  | fold :: rest =>
    let d := cvFoldData ext X y alpha fold
    let r := cvLoop ext X y alpha rest
    (maeQ d.1 d.2 :: r.1,
     ext.sqrtQ (mseQ d.1 d.2) :: r.2.1,
     if popVar d.2 > 0 ∧ popVar d.1 > 0 then ext.corrcoef d.1 d.2 :: r.2.2 else r.2.2)

/-- The aggregate-metrics dictionary returned by `cross_validate_baseline`
(`none` renders `float("nan")`). -/
structure CVAgg where
  mae_mean : Option ℚ
  mae_std : Option ℚ
  rmse_mean : Option ℚ
  rmse_std : Option ℚ
  pearson_mean : Option ℚ
  pearson_std : Option ℚ
deriving DecidableEq

/-- Resolution of the optional `n_splits` argument of
`cross_validate_baseline`: Python's `n_splits or training_config.n_splits_cv`
falls back to the configured value on `None` and on the falsy `0`. -/
def cv_n_splits (n_splits : Option Nat) : Nat :=
  match n_splits with
  | none => training_config_n_splits_cv
  | some m => if m = 0 then training_config_n_splits_cv else m

/-- The fold assignment of `cross_validate_baseline`: the index pairs
produced by `KFold(n_splits, shuffle=True,
random_state=training_config.random_seed).split(X)`. -/
def cv_folds (ext : ExternalML) (X : List (List ℚ)) (n_splits : Option Nat) :
    List (List Nat × List Nat) :=
  ext.kfold training_config_random_seed X.length (cv_n_splits n_splits)

/-- `cross_validate_baseline` of `model.py`: run K-fold CV and return the
aggregate metrics dictionary. -/
def cross_validate_baseline (ext : ExternalML) (X : List (List ℚ)) (y : List ℚ)
    (alpha : ℚ) (n_splits : Option Nat) : CVAgg :=
  let folds := cv_folds ext X n_splits
  let acc := cvLoop ext X y alpha folds
  { mae_mean := npMean acc.1
    mae_std := npStd ext.sqrtQ acc.1
    rmse_mean := npMean acc.2.1
    rmse_std := npStd ext.sqrtQ acc.2.1
    pearson_mean := if acc.2.2 = [] then none else npMean acc.2.2
    pearson_std := if acc.2.2 = [] then none else npStd ext.sqrtQ acc.2.2 }

/-- A concrete instance of the external collaborators, used to instantiate
universally quantified statements about `cross_validate_baseline`. -/
def extTrivial : ExternalML :=
  { kfold := fun _ _ _ => []
    ridge_predict := fun _ _ _ _ => []
    corrcoef := fun _ _ => 0
    sqrtQ := fun q => q }

end GrammarScore

namespace GrammarScore

/-- Helper: `score_band` never returns anything outside the three bands,
and the three return values are pairwise distinct strings. -/
theorem score_band_cases (x : ℚ) :
    score_band x = "low" ∨ score_band x = "medium" ∨ score_band x = "high" := by
  unfold score_band
  split_ifs <;> simp

/-- C6: `score_band` returns "low" exactly when `x ≤ 2.5`, "medium"
exactly when `2.5 < x < 4.0`, "high" exactly when `x ≥ 4.0`; in
particular `score_band 2.5 = "low"`, `score_band 2.51 = "medium"`,
`score_band 3.99 = "medium"` and `score_band 4.0 = "high"`. -/
theorem C6_score_band_spec (x : ℚ) :
    (score_band x = "low" ↔ x ≤ 5/2) ∧
    (score_band x = "medium" ↔ 5/2 < x ∧ x < 4) ∧
    (score_band x = "high" ↔ 4 ≤ x) ∧
    score_band (5/2) = "low" ∧ score_band (251/100) = "medium" ∧
    score_band (399/100) = "medium" ∧ score_band 4 = "high" := by
  refine ⟨?_, ?_, ?_, ?_, ?_, ?_, ?_⟩
  · constructor
    · intro h
      unfold score_band at h
      split_ifs at h with h1 h2
      · exact h1
      · exact absurd h (by decide)
      · exact absurd h (by decide)
    · intro h
      unfold score_band
      rw [if_pos h]
  · constructor
    · intro h
      unfold score_band at h
      split_ifs at h with h1 h2
      · exact absurd h (by decide)
      · exact ⟨by linarith, h2⟩
      · exact absurd h (by decide)
    · rintro ⟨ha, hb⟩
      unfold score_band
      rw [if_neg (by linarith), if_pos hb]
  · constructor
    · intro h
      unfold score_band at h
      split_ifs at h with h1 h2
      · exact absurd h (by decide)
      · exact absurd h (by decide)
      · linarith
    · intro h
      unfold score_band
      rw [if_neg (by linarith), if_neg (by linarith)]
  all_goals norm_num [score_band]

/-- C8: empty (`some []`) or null (`none`) input yields the empty cleaned
string and the all-zero `CleaningStats` record. -/
theorem C8_clean_empty_input :
    clean_transcript none =
      ([], { num_tokens_raw := 0, num_tokens_clean := 0, fillers_removed := 0
             repetitions_collapsed := 0, false_starts_trimmed := 0 }) ∧
    clean_transcript (some []) =
      ([], { num_tokens_raw := 0, num_tokens_clean := 0, fillers_removed := 0
             repetitions_collapsed := 0, false_starts_trimmed := 0 }) := by
  constructor <;> rfl

/-- C4: `clean_transcript "i i i was going"` returns `"i was going"` with
`num_tokens_raw = 5`, `num_tokens_clean = 3`, `false_starts_trimmed = 1`
(the leading `"i i"` pair, trimmed after filler removal and before
stutter collapsing) and `repetitions_collapsed = 1` (the one duplicate
left on the already-trimmed token sequence).  These counts separate the
actual stage order from any other: trimming after collapsing would give
`false_starts_trimmed = 0` and `repetitions_collapsed = 2` on this
input. -/
theorem C4_stage_order_example :
    clean_transcript (some "i i i was going".data) =
      ("i was going".data,
        { num_tokens_raw := 5, num_tokens_clean := 3, fillers_removed := 0
          repetitions_collapsed := 1, false_starts_trimmed := 1 }) := by
  decide

/-- C2 counterexample: a match whose rule identifier (`VERB_FORM`)
contains the category keyword `verb` but whose message contains no
category keyword is NOT counted in the verb/tense sub-category: the
classification loop never consults the rule identifier, only the
message. -/
theorem C2_counterexample :
    occursIn "verb".data ("VERB_FORM".data.map lowerChar) = true ∧
    grammar_error_counts
        [{ rule_id := "VERB_FORM".data, message := "Did you mean xyz".data }] =
      { num_grammar_errors := 1, num_verb_tense_errors := 0
        num_agreement_errors := 0, num_article_errors := 0
        num_preposition_errors := 0, num_word_order_errors := 0 } := by
  decide

/-- C2 (amended): sub-category classification is decided by the
lowercased message alone — erasing every rule identifier leaves all
counts unchanged, and a single match's counts are exactly the keyword
indicators of its lowercased message. -/
theorem C2_message_only_classification :
    (∀ ms : List LTMatch,
       grammar_error_counts ms =
         grammar_error_counts (ms.map (fun m => { rule_id := [], message := m.message }))) ∧
    (∀ rid msg : List Char,
       grammar_error_counts [{ rule_id := rid, message := msg }] =
         { num_grammar_errors := 1
           num_verb_tense_errors :=
             if occursIn "verb".data (msg.map lowerChar) ||
                occursIn "tense".data (msg.map lowerChar) then 1 else 0
           num_agreement_errors :=
             if occursIn "agreement".data (msg.map lowerChar) ||
                occursIn "subject-verb".data (msg.map lowerChar) then 1 else 0
           num_article_errors :=
             if occursIn "article".data (msg.map lowerChar) ||
                occursIn "determiner".data (msg.map lowerChar) then 1 else 0
           num_preposition_errors :=
             if occursIn "preposition".data (msg.map lowerChar) then 1 else 0
           num_word_order_errors :=
             if occursIn "word order".data (msg.map lowerChar) then 1 else 0 }) := by
  constructor
  · have key : ∀ (ms : List LTMatch) (c : GrammarCounts),
        (ms.map (fun m => ({ rule_id := [], message := m.message } : LTMatch))).foldl
            classifyMatch c =
          ms.foldl classifyMatch c := by
      intro ms
      induction ms with
      | nil => intro c; rfl
      | cons m rest ih =>
        intro c
        simp only [List.map_cons, List.foldl_cons]
        exact ih (classifyMatch c m)
    intro ms
    exact (key ms {}).symm
  · intro rid msg
    simp [grammar_error_counts, classifyMatch]

/-- C1 counterexample: a prediction-time feature table whose columns are
the training-time columns in a different order does not raise — the
indexing `test_feats[artifacts.feature_names]` silently realigns the
columns by name into training order. -/
theorem C1_counterexample :
    List.map Prod.fst ([("b", [(3:ℚ)]), ("a", [7])] : DataFrame) ≠ ["a", "b"] ∧
    main_feature_step ["a", "b"] [("b", [(3:ℚ)]), ("a", [7])] =
      Except.ok [("a", [7]), ("b", [3])] := by
  constructor
  · decide
  · rfl

/-- C1 (amended): the prediction path raises (`KeyError`) exactly when
some training-time feature name is missing from the prediction-time
table; when every name is present — in particular when the same columns
appear in a different order — it silently selects and realigns the
columns by name into `artifacts.feature_names` order. -/
theorem C1_feature_name_contract (names : List String) (df : DataFrame) :
    ((∀ n ∈ names, (DataFrame.col df n).isSome) →
       main_feature_step names df =
         Except.ok (names.map (fun n => (n, (DataFrame.col df n).getD [])))) ∧
    ((∃ n ∈ names, DataFrame.col df n = none) →
       main_feature_step names df = Except.error "KeyError") := by
  induction names with
  | nil =>
    constructor
    · intro _; rfl
    · rintro ⟨n, hn, -⟩; cases hn
  | cons n ns ih =>
    constructor
    · intro h
      have hn := h n (List.mem_cons_self n ns)
      obtain ⟨v, hv⟩ := Option.isSome_iff_exists.mp hn
      have hrest := ih.1 (fun m hm => h m (List.mem_cons_of_mem n hm))
      unfold main_feature_step at hrest ⊢
      unfold selectCols
      rw [hv, hrest]
      simp [hv]
    · rintro ⟨m, hm, hnone⟩
      rcases List.mem_cons.mp hm with hmn | hmns
      · subst hmn
        unfold main_feature_step selectCols
        rw [hnone]
      · unfold main_feature_step selectCols
        cases hcol : DataFrame.col df n with
        | none => rfl
        | some v =>
          have hrest := ih.2 ⟨m, hmns, hnone⟩
          unfold main_feature_step at hrest
          rw [hrest]

/-- C1 witness: a table missing the requested column `z` raises. -/
theorem C1_feature_name_contract_witness :
    main_feature_step ["z"] ([("a", [(7:ℚ)])] : DataFrame) = Except.error "KeyError" :=
  (C1_feature_name_contract ["z"] [("a", [(7:ℚ)])]).2 ⟨"z", by decide, by rfl⟩

/-- Helper: the three metric lists built by the fold loop of
`cross_validate_baseline`, in closed form: MAE and RMSE are recorded for
every fold, the Pearson value only for folds passing the two
positive-variance guards. -/
theorem cvLoop_spec (ext : ExternalML) (X : List (List ℚ)) (y : List ℚ) (alpha : ℚ) :
    ∀ folds : List (List Nat × List Nat),
      (cvLoop ext X y alpha folds).1 =
        folds.map (fun f =>
          maeQ (cvFoldData ext X y alpha f).1 (cvFoldData ext X y alpha f).2) ∧
      (cvLoop ext X y alpha folds).2.1 =
        folds.map (fun f =>
          ext.sqrtQ (mseQ (cvFoldData ext X y alpha f).1 (cvFoldData ext X y alpha f).2)) ∧
      (cvLoop ext X y alpha folds).2.2 =
        ((folds.map (cvFoldData ext X y alpha)).filter
            (fun d => decide (0 < popVar d.2 ∧ 0 < popVar d.1))).map
          (fun d => ext.corrcoef d.1 d.2) := by
  intro folds
  induction folds with
  | nil => exact ⟨rfl, rfl, rfl⟩
  | cons f fs ih =>
    refine ⟨?_, ?_, ?_⟩
    · simp only [cvLoop, List.map_cons]
      exact congrArg _ ih.1
    · simp only [cvLoop, List.map_cons]
      exact congrArg _ ih.2.1
    · simp only [cvLoop, List.map_cons, List.filter_cons]
      by_cases hg : 0 < popVar (cvFoldData ext X y alpha f).2 ∧
          0 < popVar (cvFoldData ext X y alpha f).1
      · rw [if_pos hg, if_pos (decide_eq_true hg), List.map_cons]
        exact congrArg _ ih.2.2
      · rw [if_neg hg, if_neg (by simp only [decide_eq_true_eq]; exact hg)]
        exact ih.2.2

/-- C3: a fold's Pearson correlation enters the aggregate exactly when
both the fold's predictions and its true values have positive
(population) variance — the `pears` list is the guarded folds' values,
zero-variance folds being dropped rather than zero-filled — and the
aggregate Pearson mean and standard deviation are NaN (`none`) exactly
when no fold passed the guard. -/
theorem C3_pearson_exclusion (ext : ExternalML) (X : List (List ℚ)) (y : List ℚ)
    (alpha : ℚ) (n_splits : Option Nat) :
    (cvLoop ext X y alpha (cv_folds ext X n_splits)).2.2 =
      (((cv_folds ext X n_splits).map (cvFoldData ext X y alpha)).filter
          (fun d => decide (0 < popVar d.2 ∧ 0 < popVar d.1))).map
        (fun d => ext.corrcoef d.1 d.2) ∧
    ((cross_validate_baseline ext X y alpha n_splits).pearson_mean = none ↔
      (cvLoop ext X y alpha (cv_folds ext X n_splits)).2.2 = []) ∧
    ((cross_validate_baseline ext X y alpha n_splits).pearson_std = none ↔
      (cvLoop ext X y alpha (cv_folds ext X n_splits)).2.2 = []) := by
  refine ⟨(cvLoop_spec ext X y alpha (cv_folds ext X n_splits)).2.2, ?_, ?_⟩ <;>
    · simp only [cross_validate_baseline]
      by_cases hp : (cvLoop ext X y alpha (cv_folds ext X n_splits)).2.2 = []
      · simp [hp]
      · simp [hp, npMean, npStd]

/-- C7: cross-validation is deterministic under the fixed seed — two
calls with identical data, alpha and fold count produce the identical
fold assignment and identical aggregate metrics. -/
theorem C7_cv_deterministic (ext : ExternalML) (X₁ X₂ : List (List ℚ))
    (y₁ y₂ : List ℚ) (a₁ a₂ : ℚ) (n₁ n₂ : Option Nat)
    (hX : X₁ = X₂) (hy : y₁ = y₂) (ha : a₁ = a₂) (hn : n₁ = n₂) :
    cv_folds ext X₁ n₁ = cv_folds ext X₂ n₂ ∧
    cross_validate_baseline ext X₁ y₁ a₁ n₁ =
      cross_validate_baseline ext X₂ y₂ a₂ n₂ := by
  subst hX; subst hy; subst ha; subst hn
  exact ⟨rfl, rfl⟩

/-- C7 witness: the determinism theorem applied at a concrete instance. -/
theorem C7_cv_deterministic_witness :
    cv_folds extTrivial [[1]] none = cv_folds extTrivial [[1]] none ∧
    cross_validate_baseline extTrivial [[1]] [2] 1 none =
      cross_validate_baseline extTrivial [[1]] [2] 1 none :=
  C7_cv_deterministic extTrivial [[1]] [[1]] [2] [2] 1 1 none none rfl rfl rfl rfl

/-- Helper: filler removal accounts for every input token: kept plus
removed equals input length. -/
theorem removeFillers_length (ts : List (List Char)) :
    ts.length =
      (_remove_non_lexical_fillers ts).1.length + (_remove_non_lexical_fillers ts).2 := by
  induction ts with
  | nil => rfl
  | cons t ts ih =>
    by_cases h : t ∈ NON_LEXICAL_FILLERS <;>
      simp only [_remove_non_lexical_fillers, h, if_true, if_false, List.length_cons] <;>
      omega

/-- Helper: the false-start trim accounts for every input token. -/
theorem trim_length (ts : List (List Char)) :
    ts.length =
      (_trim_simple_false_starts ts).1.length + (_trim_simple_false_starts ts).2 := by
  rcases ts with _ | ⟨a, _ | ⟨b, rest⟩⟩
  · rfl
  · rfl
  · by_cases h : a = b <;>
      simp only [_trim_simple_false_starts, h, if_true, if_false, List.length_cons]

/-- Helper: the stutter-collapse loop body accounts for every input
token. -/
theorem collapseGo_length (prev : List Char) (ts : List (List Char)) :
    ts.length = (collapseGo prev ts).1.length + (collapseGo prev ts).2 := by
  induction ts generalizing prev with
  | nil => rfl
  | cons t ts ih =>
    by_cases h : t = prev <;>
      simp only [collapseGo, h, if_true, if_false, List.length_cons]
    · have := ih prev; omega
    · have := ih t; omega

/-- Helper: stutter collapsing accounts for every input token. -/
theorem collapse_length (ts : List (List Char)) :
    ts.length =
      (_collapse_stutter_repetitions ts).1.length + (_collapse_stutter_repetitions ts).2 := by
  rcases ts with _ | ⟨t, ts⟩
  · rfl
  · simp only [_collapse_stutter_repetitions, List.length_cons]
    have := collapseGo_length t ts
    omega

/-- Helper: over the whole token pipeline every raw token is either kept
or counted by exactly one of the three removal counters. -/
theorem pipeline_length (toks : List (List Char)) :
    toks.length =
      (_collapse_stutter_repetitions
          (_trim_simple_false_starts (_remove_non_lexical_fillers toks).1).1).1.length +
        (_remove_non_lexical_fillers toks).2 +
        (_trim_simple_false_starts (_remove_non_lexical_fillers toks).1).2 +
        (_collapse_stutter_repetitions
          (_trim_simple_false_starts (_remove_non_lexical_fillers toks).1).1).2 := by
  have h1 := removeFillers_length toks
  have h2 := trim_length (_remove_non_lexical_fillers toks).1
  have h3 := collapse_length (_trim_simple_false_starts (_remove_non_lexical_fillers toks).1).1
  omega

/-- C9: for every non-empty input the `CleaningStats` counts balance:
`num_tokens_raw = num_tokens_clean + fillers_removed +
false_starts_trimmed + repetitions_collapsed`. -/
theorem C9_token_balance (c : Char) (cs : List Char) :
    (clean_transcript (some (c :: cs))).2.num_tokens_raw =
      (clean_transcript (some (c :: cs))).2.num_tokens_clean +
        (clean_transcript (some (c :: cs))).2.fillers_removed +
        (clean_transcript (some (c :: cs))).2.false_starts_trimmed +
        (clean_transcript (some (c :: cs))).2.repetitions_collapsed := by
  simp only [clean_transcript]
  rw [if_neg (by simp)]
  exact pipeline_length _

/-- Helper: splitting a list all of whose elements are separators yields
only empty chunks. -/
theorem splitOnP_all_sep (p : Char → Bool) (l : List Char) (h : ∀ a ∈ l, p a) :
    ∀ chunk ∈ l.splitOnP p, chunk = [] := by
  induction l with
  | nil =>
    intro chunk hc
    rw [List.splitOnP_nil] at hc
    simpa using hc
  | cons x xs ih =>
    intro chunk hc
    rw [List.splitOnP_cons, if_pos (h x (List.mem_cons_self x xs))] at hc
    rcases List.mem_cons.mp hc with h1 | h2
    · exact h1
    · exact ih (fun a ha => h a (List.mem_cons_of_mem _ ha)) chunk h2

/-- Helper: whitespace normalisation maps an all-whitespace string to the
empty string. -/
theorem normalise_all_ws (l : List Char) (h : ∀ a ∈ l, isPySpace a) :
    _normalise_whitespace l = [] := by
  unfold _normalise_whitespace
  have hf : (l.splitOnP isPySpace).filter (fun c => c ≠ []) = [] := by
    rw [List.filter_eq_nil_iff]
    intro a ha
    have := splitOnP_all_sep isPySpace l h a ha
    simp [this]
  rw [hf]
  rfl

/-- C10: a non-empty all-whitespace input cleans to the empty string but
with `num_tokens_raw = num_tokens_clean = 1` (Python's
`"".split(" ") == [""]`), so the all-zero stats guarantee is specific to
the truly empty or null input. -/
theorem C10_blank_input (c : Char) (cs : List Char) (h : ∀ a ∈ c :: cs, isPySpace a) :
    clean_transcript (some (c :: cs)) =
      ([], { num_tokens_raw := 1, num_tokens_clean := 1, fillers_removed := 0
             repetitions_collapsed := 0, false_starts_trimmed := 0 }) := by
  have hn := normalise_all_ws (c :: cs) h
  simp only [clean_transcript]
  rw [if_neg (by simp)]
  simp only [hn]
  rfl

/-- C10 witness: the single-space input. -/
theorem C10_blank_input_witness :
    clean_transcript (some [' ']) =
      ([], { num_tokens_raw := 1, num_tokens_clean := 1, fillers_removed := 0
             repetitions_collapsed := 0, false_starts_trimmed := 0 }) :=
  C10_blank_input ' ' [] (by decide)

/-- Helper: `lowerChar` either produces a lowercase letter or leaves its
argument unchanged. -/
theorem lowerChar_self_or_mem (c : Char) :
    lowerChar c ∈ ['a','b','c','d','e','f','g','h','i','j','k','l','m',
                   'n','o','p','q','r','s','t','u','v','w','x','y','z'] ∨
      lowerChar c = c := by
  unfold lowerChar
  split <;> first | (left; decide) | (right; rfl)

/-- Helper: `lowerChar` fixes lowercase letters. -/
theorem lowerChar_mem_fixed (d : Char)
    (h : d ∈ ['a','b','c','d','e','f','g','h','i','j','k','l','m',
              'n','o','p','q','r','s','t','u','v','w','x','y','z']) :
    lowerChar d = d := by
  fin_cases h <;> rfl

/-- Helper: `lowerChar` is idempotent. -/
theorem lowerChar_idem (c : Char) : lowerChar (lowerChar c) = lowerChar c := by
  rcases lowerChar_self_or_mem c with h | h
  · exact lowerChar_mem_fixed _ h
  · simp only [h]

/-- Helper: lowercasing neither creates nor destroys whitespace. -/
theorem isPySpace_lowerChar (c : Char) : isPySpace (lowerChar c) = isPySpace c := by
  unfold lowerChar
  split <;> rfl

/-- Helper: `intercalate` with a one-element separator over at least two
chunks peels off the first chunk and one separator. -/
theorem intercalate_cons_cons_sep (s : Char) (a b : List Char) (ts : List (List Char)) :
    [s].intercalate (a :: b :: ts) = a ++ s :: [s].intercalate (b :: ts) := by
  simp [List.intercalate, List.intersperse_cons_cons]

/-- Helper: `intercalate` of a list starting with a nonempty chunk is
nonempty. -/
theorem intercalate_cons_ne_nil (s : Char) (t : List Char) (ts : List (List Char))
    (h : t ≠ []) : [s].intercalate (t :: ts) ≠ [] := by
  cases ts with
  | nil => simpa [List.intercalate] using h
  | cons b ts2 =>
    rw [intercalate_cons_cons_sep]
    intro hcontra
    exact h (List.append_eq_nil.mp hcontra).1

/-- Helper: no element of any chunk produced by `splitOnP p` satisfies
`p` (the separators are dropped, not kept). -/
theorem splitOnP_chunks_no_sep (p : Char → Bool) (l : List Char) :
    ∀ chunk ∈ l.splitOnP p, ∀ a ∈ chunk, ¬ p a = true := by
  induction l with
  | nil =>
    intro chunk hc
    rw [List.splitOnP_nil] at hc
    rw [List.mem_singleton.mp hc]
    intro a ha
    cases ha
  | cons x xs ih =>
    intro chunk hc
    rw [List.splitOnP_cons] at hc
    by_cases hp : p x
    · rw [if_pos hp] at hc
      rcases List.mem_cons.mp hc with h1 | h2
      · subst h1; intro a ha; cases ha
      · exact ih chunk h2
    · rw [if_neg hp] at hc
      cases hxs : xs.splitOnP p with
      | nil => exact absurd hxs (List.splitOnP_ne_nil p xs)
      | cons hd tl =>
        rw [hxs, List.modifyHead_cons] at hc
        rcases List.mem_cons.mp hc with h1 | h2
        · subst h1
          intro a ha
          rcases List.mem_cons.mp ha with rfl | ha2
          · exact hp
          · exact ih hd (hxs ▸ List.mem_cons_self hd tl) a ha2
        · exact ih chunk (hxs ▸ List.mem_cons_of_mem hd h2)

/-- Helper: splitting on a predicate inverts `intercalate` with a
separator satisfying the predicate, over nonempty chunk lists whose
elements never satisfy it (the predicate analogue of
`List.splitOn_intercalate`). -/
theorem splitOnP_intercalate_sep (p : Char → Bool) (sep : Char) (hsep : p sep = true) :
    ∀ ls : List (List Char), ls ≠ [] → (∀ t ∈ ls, ∀ a ∈ t, ¬ p a = true) →
      ([sep].intercalate ls).splitOnP p = ls := by
  intro ls
  induction ls with
  | nil => intro h _; exact absurd rfl h
  | cons t ts ih =>
    intro _ hels
    cases ts with
    | nil =>
      have h1 : [sep].intercalate [t] = t := by simp [List.intercalate]
      rw [h1]
      exact List.splitOnP_eq_single p t (hels t (List.mem_cons_self t []))
    | cons t2 ts2 =>
      rw [intercalate_cons_cons_sep,
        List.splitOnP_first p t (hels t (List.mem_cons_self t (t2 :: ts2))) sep hsep]
      rw [ih (by simp) (fun u hu => hels u (List.mem_cons_of_mem _ hu))]

/-- Helper: whitespace normalisation fixes any space-joined list of
nonempty whitespace-free chunks. -/
theorem normalise_intercalate (ls : List (List Char)) (hne : ∀ t ∈ ls, t ≠ [])
    (hws : ∀ t ∈ ls, ∀ a ∈ t, ¬ isPySpace a = true) :
    _normalise_whitespace ([' '].intercalate ls) = [' '].intercalate ls := by
  cases ls with
  | nil => rfl
  | cons t ts =>
    unfold _normalise_whitespace
    rw [splitOnP_intercalate_sep isPySpace ' ' (by decide) (t :: ts) (by simp) hws]
    rw [List.filter_eq_self.mpr (fun a ha => decide_eq_true (hne a ha))]

/-- Helper: mapping a character function over a space-joined chunk list
maps it over the separator and each chunk. -/
theorem map_intercalate (f : Char → Char) (s : Char) :
    ∀ ls : List (List Char),
      ([s].intercalate ls).map f = [f s].intercalate (ls.map (List.map f)) := by
  intro ls
  induction ls with
  | nil => rfl
  | cons t ts ih =>
    cases ts with
    | nil => simp [List.intercalate]
    | cons t2 ts2 =>
      simp only [List.map_cons, intercalate_cons_cons_sep, List.map_append, ih]

/-- Helper: filler removal keeps a subsequence of the input tokens. -/
theorem removeFillers_sublist (ts : List (List Char)) :
    (_remove_non_lexical_fillers ts).1.Sublist ts := by
  induction ts with
  | nil => exact List.Sublist.refl _
  | cons t ts ih =>
    by_cases h : t ∈ NON_LEXICAL_FILLERS <;>
      simp only [_remove_non_lexical_fillers, h, if_true, if_false]
    · exact ih.cons t
    · exact ih.cons₂ t

/-- Helper: no kept token is a filler. -/
theorem removeFillers_not_filler (ts : List (List Char)) :
    ∀ t ∈ (_remove_non_lexical_fillers ts).1, t ∉ NON_LEXICAL_FILLERS := by
  induction ts with
  | nil => intro t ht; cases ht
  | cons u ts ih =>
    intro t ht
    by_cases h : u ∈ NON_LEXICAL_FILLERS
    · simp only [_remove_non_lexical_fillers, h, if_true] at ht
      exact ih t ht
    · simp only [_remove_non_lexical_fillers, h, if_false] at ht
      rcases List.mem_cons.mp ht with rfl | h2
      · exact h
      · exact ih t h2

/-- Helper: filler removal is the identity on filler-free token lists. -/
theorem removeFillers_id (ts : List (List Char))
    (h : ∀ t ∈ ts, t ∉ NON_LEXICAL_FILLERS) :
    _remove_non_lexical_fillers ts = (ts, 0) := by
  induction ts with
  | nil => rfl
  | cons t ts ih =>
    simp only [_remove_non_lexical_fillers,
      if_neg (h t (List.mem_cons_self t ts)),
      ih (fun u hu => h u (List.mem_cons_of_mem t hu))]

/-- Helper: the false-start trim keeps a subsequence of the input
tokens. -/
theorem trim_sublist (ts : List (List Char)) :
    (_trim_simple_false_starts ts).1.Sublist ts := by
  rcases ts with _ | ⟨a, _ | ⟨b, rest⟩⟩
  · exact List.Sublist.refl _
  · exact List.Sublist.refl _
  · by_cases h : a = b <;>
      simp only [_trim_simple_false_starts, h, if_true, if_false]
    · exact (List.Sublist.refl _).cons _
    · exact List.Sublist.refl _

/-- Helper: the false-start trim is the identity on token lists with no
adjacent duplicate. -/
theorem trim_id (ts : List (List Char)) (h : List.Chain' (fun a b => a ≠ b) ts) :
    _trim_simple_false_starts ts = (ts, 0) := by
  rcases ts with _ | ⟨a, _ | ⟨b, rest⟩⟩
  · rfl
  · rfl
  · have hab : a ≠ b := (List.chain'_cons.mp h).1
    simp only [_trim_simple_false_starts, if_neg hab]

/-- Helper: the stutter-collapse loop keeps a subsequence of its input. -/
theorem collapseGo_sublist (prev : List Char) (ts : List (List Char)) :
    (collapseGo prev ts).1.Sublist ts := by
  induction ts generalizing prev with
  | nil => exact List.Sublist.refl _
  | cons t ts ih =>
    by_cases h : t = prev <;> simp only [collapseGo, h, if_true, if_false]
    · exact (ih prev).cons _
    · exact (ih t).cons₂ t

/-- Helper: stutter collapsing keeps a subsequence of its input. -/
theorem collapse_sublist (ts : List (List Char)) :
    (_collapse_stutter_repetitions ts).1.Sublist ts := by
  rcases ts with _ | ⟨t, ts⟩
  · exact List.Sublist.refl _
  · exact (collapseGo_sublist t ts).cons₂ t

/-- Helper: the output of the stutter-collapse loop, with the previous
token in front, has no adjacent duplicate. -/
theorem collapseGo_chain (prev : List Char) (ts : List (List Char)) :
    List.Chain' (fun a b => a ≠ b) (prev :: (collapseGo prev ts).1) := by
  induction ts generalizing prev with
  | nil => exact List.chain'_singleton prev
  | cons t ts ih =>
    by_cases h : t = prev <;> simp only [collapseGo, h, if_true, if_false]
    · exact ih prev
    · exact List.chain'_cons.mpr ⟨fun he => h he.symm, ih t⟩

/-- Helper: the collapsed token sequence has no adjacent duplicate. -/
theorem collapse_chain (ts : List (List Char)) :
    List.Chain' (fun a b => a ≠ b) (_collapse_stutter_repetitions ts).1 := by
  rcases ts with _ | ⟨t, ts⟩
  · exact List.chain'_nil
  · exact collapseGo_chain t ts

/-- Helper: the stutter-collapse loop is the identity when the previous
token followed by the input has no adjacent duplicate. -/
theorem collapseGo_id (prev : List Char) (ts : List (List Char))
    (h : List.Chain' (fun a b => a ≠ b) (prev :: ts)) :
    collapseGo prev ts = (ts, 0) := by
  induction ts generalizing prev with
  | nil => rfl
  | cons t ts ih =>
    have h1 := (List.chain'_cons.mp h).1
    have h2 := (List.chain'_cons.mp h).2
    simp only [collapseGo, if_neg (fun he : t = prev => h1 he.symm), ih t h2]

/-- Helper: stutter collapsing is the identity on token lists with no
adjacent duplicate. -/
theorem collapse_id (ts : List (List Char))
    (h : List.Chain' (fun a b => a ≠ b) ts) :
    _collapse_stutter_repetitions ts = (ts, 0) := by
  rcases ts with _ | ⟨t, ts⟩
  · rfl
  · simp only [_collapse_stutter_repetitions, collapseGo_id t ts h]

/-- Helper: a list whose elements are individually fixed by a map is
fixed by the map. -/
theorem map_eq_self_of_fixed {α : Type} (f : α → α) (l : List α)
    (h : ∀ a ∈ l, f a = a) : l.map f = l := by
  conv_rhs => rw [show l = l.map id from (List.map_id l).symm]
  exact List.map_congr_left h

/-- Helper: when whitespace normalisation produces no chunk at all, the
token split of the cleaned-and-lowercased text is the singleton empty
token (Python's `"".split(" ") == [""]`). -/
theorem clean_tokens_nil (t : List Char)
    (h : (t.splitOnP isPySpace).filter (fun c => c ≠ []) = []) :
    (_lowercase (_normalise_whitespace t)).splitOn ' ' = [[]] := by
  unfold _normalise_whitespace
  rw [h]
  rfl

/-- Helper: with at least one chunk, the token split of the
normalised-and-lowercased text is exactly the lowercased chunk list. -/
theorem clean_tokens_cons (t ch : List Char) (more : List (List Char))
    (h : (t.splitOnP isPySpace).filter (fun c => c ≠ []) = ch :: more) :
    (_lowercase (_normalise_whitespace t)).splitOn ' ' =
      (ch :: more).map (List.map lowerChar) := by
  have hws : ∀ u ∈ ch :: more, ∀ a ∈ u, ¬ isPySpace a = true := by
    intro u hu a ha
    exact splitOnP_chunks_no_sep isPySpace t u (List.mem_of_mem_filter (h ▸ hu)) a ha
  unfold _normalise_whitespace _lowercase
  rw [h, map_intercalate]
  have hsp : lowerChar ' ' = ' ' := rfl
  rw [hsp]
  refine List.splitOn_intercalate _ ' ' ?_ (by simp)
  intro l hl hspmem
  obtain ⟨u, hu, rfl⟩ := List.mem_map.mp hl
  obtain ⟨b, hb, hbl⟩ := List.mem_map.mp hspmem
  have hbsp : isPySpace (lowerChar b) = true := by rw [hbl]; decide
  rw [isPySpace_lowerChar] at hbsp
  exact hws u hu b hb hbsp

/-- Helper: the cleaned text of a non-empty input, written as the
normalised space-join of the fully processed token list. -/
theorem clean_some_token_form (t : List Char) (ht : t ≠ []) :
    (clean_transcript (some t)).1 =
      _normalise_whitespace (List.intercalate [' ']
        (_collapse_stutter_repetitions
          (_trim_simple_false_starts
            (_remove_non_lexical_fillers
              ((_lowercase (_normalise_whitespace t)).splitOn ' ')).1).1).1) := by
  simp only [clean_transcript]
  rw [if_neg ht]

/-- Helper: `clean_transcript` is the identity (with trivial stats) on a
space-join of nonempty, whitespace-free, lowercase-fixed, filler-free
tokens with no adjacent duplicate — exactly the shape of its own
output. -/
theorem clean_fixed (ts : List (List Char)) (hne : ts ≠ [])
    (hel : ∀ u ∈ ts, u ≠ []) (hws : ∀ u ∈ ts, ∀ a ∈ u, ¬ isPySpace a = true)
    (hlow : ∀ u ∈ ts, u.map lowerChar = u) (hfil : ∀ u ∈ ts, u ∉ NON_LEXICAL_FILLERS)
    (hch : List.Chain' (fun a b => a ≠ b) ts) :
    clean_transcript (some ([' '].intercalate ts)) =
      ([' '].intercalate ts,
        { num_tokens_raw := ts.length, num_tokens_clean := ts.length
          fillers_removed := 0, repetitions_collapsed := 0
          false_starts_trimmed := 0 }) := by
  obtain ⟨t0, ts', rfl⟩ : ∃ t0 ts', ts = t0 :: ts' := by
    cases ts with
    | nil => exact absurd rfl hne
    | cons a b => exact ⟨a, b, rfl⟩
  have hIne : [' '].intercalate (t0 :: ts') ≠ [] :=
    intercalate_cons_ne_nil ' ' t0 ts' (hel t0 (List.mem_cons_self t0 ts'))
  have hnorm : _normalise_whitespace ([' '].intercalate (t0 :: ts')) =
      [' '].intercalate (t0 :: ts') :=
    normalise_intercalate _ hel hws
  have hmapfix : (t0 :: ts').map (List.map lowerChar) = t0 :: ts' :=
    map_eq_self_of_fixed _ _ hlow
  have hlowI : _lowercase ([' '].intercalate (t0 :: ts')) =
      [' '].intercalate (t0 :: ts') := by
    unfold _lowercase
    rw [map_intercalate, hmapfix]
    rfl
  have htoks : ([' '].intercalate (t0 :: ts')).splitOn ' ' = t0 :: ts' :=
    List.splitOn_intercalate _ ' '
      (fun l hl hsp => absurd (by decide : isPySpace ' ' = true) (hws l hl ' ' hsp))
      (by simp)
  simp only [clean_transcript]
  rw [if_neg hIne, hnorm, hlowI, htoks, removeFillers_id _ hfil]
  dsimp only
  rw [trim_id _ hch]
  dsimp only
  rw [collapse_id _ hch]
  dsimp only
  rw [hnorm]

/-- Helper: every cleaned text is either empty or the space-join of a
nonempty token list that is pointwise nonempty, whitespace-free,
lowercase-fixed, filler-free and has no adjacent duplicate. -/
theorem clean_output_form (x : Option (List Char)) :
    (clean_transcript x).1 = [] ∨
      ∃ ts : List (List Char), ts ≠ [] ∧ (∀ u ∈ ts, u ≠ []) ∧
        (∀ u ∈ ts, ∀ a ∈ u, ¬ isPySpace a = true) ∧
        (∀ u ∈ ts, u.map lowerChar = u) ∧
        (∀ u ∈ ts, u ∉ NON_LEXICAL_FILLERS) ∧
        List.Chain' (fun a b => a ≠ b) ts ∧
        (clean_transcript x).1 = [' '].intercalate ts := by
  cases x with
  | none => exact Or.inl rfl
  | some t =>
    by_cases ht : t = []
    · subst ht; exact Or.inl rfl
    · cases hc : (t.splitOnP isPySpace).filter (fun c => c ≠ []) with
      | nil =>
        left
        rw [clean_some_token_form t ht, clean_tokens_nil t hc]
        rfl
      | cons ch more =>
        have htok := clean_tokens_cons t ch more hc
        have hform := clean_some_token_form t ht
        rw [htok] at hform
        have hne2 : ∀ u ∈ (ch :: more).map (List.map lowerChar), u ≠ [] := by
          intro u hu
          obtain ⟨v, hv, rfl⟩ := List.mem_map.mp hu
          have hvchunks : v ∈ (t.splitOnP isPySpace).filter (fun c => c ≠ []) := by
            rw [hc]; exact hv
          have hv2 : v ≠ [] := of_decide_eq_true (List.mem_filter.mp hvchunks).2
          simpa using hv2
        have hws2 : ∀ u ∈ (ch :: more).map (List.map lowerChar),
            ∀ a ∈ u, ¬ isPySpace a = true := by
          intro u hu a ha
          obtain ⟨v, hv, rfl⟩ := List.mem_map.mp hu
          obtain ⟨b, hb, rfl⟩ := List.mem_map.mp ha
          rw [isPySpace_lowerChar]
          exact splitOnP_chunks_no_sep isPySpace t v
            (List.mem_of_mem_filter (hc ▸ hv)) b hb
        have hlow2 : ∀ u ∈ (ch :: more).map (List.map lowerChar),
            u.map lowerChar = u := by
          intro u hu
          obtain ⟨v, hv, rfl⟩ := List.mem_map.mp hu
          rw [List.map_map]
          exact List.map_congr_left (fun a _ => lowerChar_idem a)
        have hsubl :
            (_collapse_stutter_repetitions
              (_trim_simple_false_starts
                (_remove_non_lexical_fillers
                  ((ch :: more).map (List.map lowerChar))).1).1).1.Sublist
              ((ch :: more).map (List.map lowerChar)) :=
          ((collapse_sublist _).trans (trim_sublist _)).trans (removeFillers_sublist _)
        have hsubf :
            (_collapse_stutter_repetitions
              (_trim_simple_false_starts
                (_remove_non_lexical_fillers
                  ((ch :: more).map (List.map lowerChar))).1).1).1.Sublist
              (_remove_non_lexical_fillers ((ch :: more).map (List.map lowerChar))).1 :=
          (collapse_sublist _).trans (trim_sublist _)
        by_cases hPnil :
            (_collapse_stutter_repetitions
              (_trim_simple_false_starts
                (_remove_non_lexical_fillers
                  ((ch :: more).map (List.map lowerChar))).1).1).1 = []
        · left
          rw [hform, hPnil]
          rfl
        · right
          have hPel : ∀ u ∈ (_collapse_stutter_repetitions
              (_trim_simple_false_starts
                (_remove_non_lexical_fillers
                  ((ch :: more).map (List.map lowerChar))).1).1).1, u ≠ [] :=
            fun u hu => hne2 u (hsubl.mem hu)
          have hPws : ∀ u ∈ (_collapse_stutter_repetitions
              (_trim_simple_false_starts
                (_remove_non_lexical_fillers
                  ((ch :: more).map (List.map lowerChar))).1).1).1,
              ∀ a ∈ u, ¬ isPySpace a = true :=
            fun u hu => hws2 u (hsubl.mem hu)
          rw [normalise_intercalate _ hPel hPws] at hform
          refine ⟨_, hPnil, hPel, hPws, ?_, ?_, collapse_chain _, hform⟩
          · exact fun u hu => hlow2 u (hsubl.mem hu)
          · exact fun u hu => removeFillers_not_filler _ u (hsubf.mem hu)

/-- C5: cleaning is idempotent on its own output — re-cleaning the
cleaned text of any input (empty, null or not) returns it unchanged. -/
theorem C5_clean_idempotent (x : Option (List Char)) :
    (clean_transcript (some (clean_transcript x).1)).1 = (clean_transcript x).1 := by
  rcases clean_output_form x with h | ⟨ts, hne, hel, hws, hlow, hfil, hch, hform⟩
  · rw [h]
    rfl
  · rw [hform, clean_fixed ts hne hel hws hlow hfil hch]

end GrammarScore
